import Mathlib

/-!
Verification of the YTF raster codec (`encoder.py` / `decoder.py`).

The two Python files implement a byte-to-raster codec: a framed payload
(magic + two little-endian uint64 lengths + body) is split into
`blocks_per_frame`-byte chunks, each chunk rendered as a grayscale frame
whose grid cells carry one byte as 8 vertical black/white stripes, and a
decoder samples the stripes back by thresholding the truncating mean of
each stripe's interior. This file is a shallow embedding of that code:

* frames are functions `Nat → Nat → Nat` (row, column ↦ pixel value),
  serialized row-major by `toBytes` exactly as `img.tobytes()` does;
* Python machine integers are `Nat`/`Int`; Python's floor division `//`
  on possibly-negative quantities is `Int.fdiv`; the slice clamps
  `max(0, min(bound, v))` are `clampTo`;
* the encoder's loop of rectangle fills is the fold `applyWrite` over the
  ordered write list `frameWrites`, one guarded write per (block, bit) in
  the same enumeration order as the source;
* the decoder's per-stripe sampling rectangle, truncating integer mean and
  `> 127` threshold are `sampleRect`, `sampleValue` and `bitAt`.
-/

set_option maxRecDepth 10000

namespace YTF

/-- The 4-byte magic constant `b"YTF1"` shared by encoder and decoder. -/
def MAGIC : List Nat := [89, 84, 70, 49]

/-- `grid_dimensions` from both files: `cell = block+gutter`,
`cols = width // cell`, `rows = height // cell`. -/
def grid_dimensions (width height block_size gutter : Nat) : Nat × Nat :=
  let cell := block_size + gutter
  (width / cell, height / cell)

/-- Derived capacity `cols * rows` of one frame, in bytes. -/
def blocks_per_frame (width height block_size gutter : Nat) : Nat :=
  (grid_dimensions width height block_size gutter).1 *
    (grid_dimensions width height block_size gutter).2

/-- The clamp `max(0, min(bound, v))` used for safe writes and reads,
taking a possibly-negative coordinate back into `[0, bound]`. -/
def clampTo (bound : Nat) (v : Int) : Nat := (max 0 (min (bound : Int) v)).toNat

namespace Encoder

/-- `stripe_w = max(1, block_size // 8)` (encoder.py line 31). -/
def stripe_w (block_size : Nat) : Nat := max 1 (block_size / 8)

/-- Stripe-area origin `sx = x0 + (B - total_stripe_area_w) // 2`
(encoder.py line 40); Python `//` floors toward negative infinity,
hence `Int.fdiv`. -/
def sx (x0 : Int) (block_size : Nat) : Int :=
  x0 + Int.fdiv ((block_size : Int) - (stripe_w block_size * 8 : Nat)) 2

/-- One clamped rectangle fill `img[y0c:y1c, x0c:x1c] = color`. -/
structure Rect where
  x0 : Nat
  x1 : Nat
  y0 : Nat
  y1 : Nat
  color : Nat
deriving DecidableEq

/-- Membership of pixel `(y, x)` in a write rectangle. -/
abbrev Rect.covers (w : Rect) (y x : Nat) : Prop :=
  w.y0 ≤ y ∧ y < w.y1 ∧ w.x0 ≤ x ∧ x < w.x1

/-- Apply one rectangle fill to an image (numpy slice assignment). -/
def applyWrite (img : Nat → Nat → Nat) (w : Rect) : Nat → Nat → Nat :=
  fun y x => if w.y0 ≤ y ∧ y < w.y1 ∧ w.x0 ≤ x ∧ x < w.x1 then w.color else img y x

/-- Apply a list of rectangle fills in order (later writes win). -/
def applyWrites (ws : List Rect) (img : Nat → Nat → Nat) : Nat → Nat → Nat :=
  ws.foldl applyWrite img

/-- The clamped fill rectangle for bit `bit` of byte `b` at grid index
`idx` (encoder.py lines 36-50): cell origin `x0 = (idx % cols) * cell`,
`y0 = (idx // cols) * cell`, stripe span
`[sx + bit*stripe_w, sx + (bit+1)*stripe_w)`, full cell height, fill 255
for a 1-bit (MSB first) and 0 for a 0-bit. -/
def stripeWrite (W H B G cols : Nat) (idx b bit : Nat) : Rect :=
  let cell := B + G
  let x0 : Int := ((idx % cols) * cell : Nat)
  let y0 : Int := ((idx / cols) * cell : Nat)
  let s := sx x0 B
  let bitval := b / 2 ^ (7 - bit) % 2
  let xs0 := s + ((bit * stripe_w B : Nat) : Int)
  let xs1 := xs0 + ((stripe_w B : Nat) : Int)
  { x0 := clampTo W xs0, x1 := clampTo W xs1,
    y0 := clampTo H y0, y1 := clampTo H (y0 + (B : Int)),
    color := if bitval = 1 then 255 else 0 }

/-- The ordered list of guarded rectangle fills performed while rendering
one chunk: bytes in enumeration order truncated at `cols*rows`
(the `if idx >= max_blocks: break`), bits 0..7 inside each byte, a write
skipped when its clamped rectangle is empty (encoder.py line 51). -/
def frameWrites (chunk : List Nat) (W H B G : Nat) : List Rect :=
  let cols := (grid_dimensions W H B G).1
  let rows := (grid_dimensions W H B G).2
  ((chunk.take (cols * rows)).enum).flatMap fun p =>
    (List.range 8).filterMap fun bit =>
      let w := stripeWrite W H B G cols p.1 p.2 bit
      if w.x0 < w.x1 ∧ w.y0 < w.y1 then some w else none

/-- `render_frame_from_payload` (encoder.py lines 24-53): start from the
all-zero background and perform every guarded stripe fill in order. -/
def render_frame_from_payload (chunk : List Nat) (W H B G : Nat) : Nat → Nat → Nat :=
  applyWrites (frameWrites chunk W H B G) fun _ _ => 0

/-- `img.tobytes()`: the row-major serialization of a `H x W` image. -/
def toBytes (img : Nat → Nat → Nat) (W H : Nat) : List Nat :=
  (List.range (H * W)).map fun i => img (i / W) (i % W)

/-- `struct.pack("<Q", n)`: 8 little-endian bytes (faithful for `n < 2^64`). -/
def pack64 (n : Nat) : List Nat :=
  [n % 256, n / 256 % 256, n / 256 ^ 2 % 256, n / 256 ^ 3 % 256,
   n / 256 ^ 4 % 256, n / 256 ^ 5 % 256, n / 256 ^ 6 % 256, n / 256 ^ 7 % 256]

/-- The 20-byte header `MAGIC + pack("<Q", compressed_length) +
pack("<Q", original_length)` (encoder.py line 89), without compression so
both lengths are `P.length`. -/
def header (P : List Nat) : List Nat :=
  MAGIC ++ pack64 P.length ++ pack64 P.length

/-- `header + payload_bytes` (encoder.py line 90), uncompressed path. -/
def frame_payload (P : List Nat) : List Nat := header P ++ P

/-- The `f`-th chunk of the framed payload, zero-padded to
`blocks_per_frame` bytes (encoder.py lines 128-132). -/
def chunkAt (payload : List Nat) (bpf f : Nat) : List Nat :=
  let c := (payload.drop (f * bpf)).take bpf
  c ++ List.replicate (bpf - c.length) 0

/-- `frames_needed = math.ceil(payload_len / blocks_per_frame)`
(encoder.py line 95), as exact natural-number ceiling division. -/
def frames_needed (len bpf : Nat) : Nat := (len + bpf - 1) / bpf

/-- The full encode pipeline without compression (encoder.py lines 88-135):
frame the payload, chunk it, render each chunk, and concatenate the raw
frame bytes in order. -/
def encode_pipeline (P : List Nat) (W H B G : Nat) : List Nat :=
  let payload := frame_payload P
  let bpf := blocks_per_frame W H B G
  (List.range (frames_needed payload.length bpf)).flatMap fun f =>
    toBytes (render_frame_from_payload (chunkAt payload bpf f) W H B G) W H

end Encoder

namespace Decoder

/-- `stripe_w = max(1, block_size // 8)` (decoder.py line 21). -/
def stripe_w (block_size : Nat) : Nat := max 1 (block_size / 8)

/-- `sx = x0 + (block_size - total_stripe_area_w) // 2` (decoder.py
line 32), Python floor division. -/
def sx (x0 : Int) (block_size : Nat) : Int :=
  x0 + Int.fdiv ((block_size : Int) - (stripe_w block_size * 8 : Nat)) 2

/-- Pixel `frame[y, x]` of the `f`-th frame of the recovered raw byte
stream: `raw_bytes[f*frame_size + y*width + x]` (decoder.py line 26). -/
def pixel (raw : List Nat) (W H : Nat) (f y x : Nat) : Nat :=
  raw.getD (f * (W * H) + y * W + x) 0

/-- The pixel values of the numpy slice `frame[ys0:ys1, xs0:xs1]`,
row-major. -/
def sampleVals (frame : Nat → Nat → Nat) (ys0 ys1 xs0 xs1 : Nat) : List Nat :=
  (List.range (ys1 - ys0)).flatMap fun dy =>
    (List.range (xs1 - xs0)).map fun dx => frame (ys0 + dy) (xs0 + dx)

/-- `sample_val` (decoder.py lines 41-45): 0 when the clamped rectangle is
empty, otherwise `int(sample.mean())` — the truncating integer mean,
guarded once more by `sample.size > 0`. -/
def sampleValue (frame : Nat → Nat → Nat) (ys0 ys1 xs0 xs1 : Nat) : Nat :=
  if xs1 ≤ xs0 ∨ ys1 ≤ ys0 then 0
  else
    let s := sampleVals frame ys0 ys1 xs0 xs1
    if 0 < s.length then s.sum / s.length else 0

/-- The clamped sampling rectangle `(xs0, xs1, ys0, ys1)` for bit `bit` of
grid index `idx` (decoder.py lines 30-40): same stripe span as the
encoder, vertically cropped to `[y0+1, y0+block_size-1)`. -/
def sampleRect (W H B G cols : Nat) (idx bit : Nat) : Nat × Nat × Nat × Nat :=
  let cell := B + G
  let x0 : Int := ((idx % cols) * cell : Nat)
  let y0 : Nat := (idx / cols) * cell
  let s := sx x0 B
  let xs0 := s + ((bit * stripe_w B : Nat) : Int)
  let xs1 := xs0 + ((stripe_w B : Nat) : Int)
  (clampTo W xs0, clampTo W xs1,
   clampTo H ((y0 : Int) + 1), clampTo H ((y0 : Int) + (B : Int) - 1))

/-- The decoded bit for `(idx, bit)`: threshold `sample_val > 127`
(decoder.py line 46). -/
def bitAt (frame : Nat → Nat → Nat) (W H B G cols : Nat) (idx bit : Nat) : Nat :=
  match sampleRect W H B G cols idx bit with
  | (xs0, xs1, ys0, ys1) => if 127 < sampleValue frame ys0 ys1 xs0 xs1 then 1 else 0

/-- One decoded byte: `byte = (byte << 1) | bitval` over bits 0..7
(decoder.py lines 33-47). -/
def decodeByte (frame : Nat → Nat → Nat) (W H B G cols : Nat) (idx : Nat) : Nat :=
  (List.range 8).foldl (fun byte bit => byte * 2 + bitAt frame W H B G cols idx bit) 0

/-- `decode_frames_from_raw_bytes` (decoder.py lines 15-49):
`total_frames = len(raw_bytes) // frame_size` frames, each contributing
`cols*rows` bytes in row-major grid order, concatenated. -/
def decode_frames_from_raw_bytes (raw : List Nat) (W H B G : Nat) : List Nat :=
  let cols := (grid_dimensions W H B G).1
  let rows := (grid_dimensions W H B G).2
  let frame_size := W * H
  let total_frames := raw.length / frame_size
  (List.range total_frames).flatMap fun f =>
    (List.range (cols * rows)).map fun idx =>
      decodeByte (fun y x => pixel raw W H f y x) W H B G cols idx

/-- `struct.unpack_from("<Q", bs)` on an 8-byte little-endian slice. -/
def le64 (bs : List Nat) : Nat := bs.foldr (fun b acc => b + 256 * acc) 0

/-- The error raised when neither header nor manifest provides the
lengths (decoder.py line 129); the spec calls it FormatError. -/
inductive DecodeError where
  | formatError
deriving DecidableEq

/-- Header-then-manifest dispatch of decoder.py `main` (lines 120-129):
if the recovered stream starts with the magic, read `compressed_length`
and `original_length` from the header and slice `[20:20+compressed_len]`;
otherwise fall back to the manifest's `compressed_length` (slicing
`[:compressed_len]`) and optional `original_length`; otherwise fail.
Returns `(compressed_len, original_len?, comp_bytes)`. Faithful to the
source for streams of at least 20 bytes on the header branch. -/
def parse_recovered (recovered : List Nat) (man_cl man_ol : Option Nat) :
    Except DecodeError (Nat × Option Nat × List Nat) :=
  if recovered.take 4 = MAGIC then
    let cl := le64 ((recovered.drop 4).take 8)
    let ol := le64 ((recovered.drop 12).take 8)
    Except.ok (cl, some ol, (recovered.drop 20).take cl)
  else
    match man_cl with
    | some cl => Except.ok (cl, man_ol, recovered.take cl)
    | none => Except.error DecodeError.formatError

/-- Post-processing of decoder.py `main` (lines 131-137): the body is
decompressed only when `args.compress` is set AND the input is a local
file (`args.input`), then truncated to `original_len` only when that
value is truthy (present and nonzero); otherwise the body is returned
verbatim. `dctx` is the opaque decompressor. -/
def postprocess (dctx : List Nat → List Nat) (compressFlag islocal : Bool)
    (body : List Nat) (original_len : Option Nat) : List Nat :=
  if compressFlag && islocal then
    let orig := dctx body
    match original_len with
    | some n => if n ≠ 0 then orig.take n else orig
    | none => orig
  else body

end Decoder

/-- The truncating integer mean of the pixels of `frame` over the
rectangle `[ys0,ys1) x [xs0,xs1)`, stated independently of the decoder's
sampling code: a double `Finset` sum divided by the rectangle area. -/
def rectMean (frame : Nat → Nat → Nat) (ys0 ys1 xs0 xs1 : Nat) : Nat :=
  (∑ y ∈ Finset.Ico ys0 ys1, ∑ x ∈ Finset.Ico xs0 xs1, frame y x) /
    ((ys1 - ys0) * (xs1 - xs0))

/-! ### Basic lemmas about the write fold -/

namespace Encoder

lemma applyWrites_cons (w : Rect) (ws : List Rect) (img : Nat → Nat → Nat) :
    applyWrites (w :: ws) img = applyWrites ws (applyWrite img w) := rfl

/-- A pixel covered by no write keeps its background value. -/
lemma applyWrites_of_not_covers (ws : List Rect) (y x : Nat)
    (h : ∀ w ∈ ws, ¬ w.covers y x) :
    ∀ img, applyWrites ws img y x = img y x := by
  induction ws with
  | nil => intro img; rfl
  | cons w t ih =>
      intro img
      rw [applyWrites_cons, ih (fun w' hw' => h w' (List.mem_cons_of_mem _ hw'))]
      unfold applyWrite
      rw [if_neg (h w (List.mem_cons_self _ _))]

/-- A pixel covered by some write, all of whose covering writes agree on a
color, ends with that color. -/
lemma applyWrites_eq_color (c : Nat) : ∀ (ws : List Rect) (y x : Nat),
    (∃ w ∈ ws, w.covers y x) →
    (∀ w ∈ ws, w.covers y x → w.color = c) →
    ∀ img, applyWrites ws img y x = c := by
  intro ws
  induction ws with
  | nil => rintro y x ⟨w, hw, -⟩; cases hw
  | cons h t ih =>
      rintro y x ⟨w, hw, hc⟩ hcol img
      rw [applyWrites_cons]
      by_cases hex : ∃ w' ∈ t, w'.covers y x
      · exact ih y x hex (fun w' h1 h2 => hcol w' (List.mem_cons_of_mem _ h1) h2) _
      · push_neg at hex
        rw [applyWrites_of_not_covers t y x hex]
        have hwh : w = h := by
          rcases List.mem_cons.mp hw with h1 | h1
          · exact h1
          · exact absurd hc (hex w h1)
        subst hwh
        unfold applyWrite
        rw [if_pos hc]
        exact hcol w (List.mem_cons_self _ _) hc

/-- The fold preserves a two-valued pixel invariant. -/
lemma applyWrites_mem_pair (ws : List Rect) :
    ∀ (img : Nat → Nat → Nat) (y x : Nat),
    (∀ w ∈ ws, w.color = 0 ∨ w.color = 255) →
    (img y x = 0 ∨ img y x = 255) →
    applyWrites ws img y x = 0 ∨ applyWrites ws img y x = 255 := by
  induction ws with
  | nil => intro img y x _ h; exact h
  | cons w t ih =>
      intro img y x hcol himg
      rw [applyWrites_cons]
      apply ih _ y x (fun w' hw' => hcol w' (List.mem_cons_of_mem _ hw'))
      unfold applyWrite
      split
      · exact hcol w (List.mem_cons_self _ _)
      · exact himg

end Encoder

/-! ### Basic lemmas about sampling -/

namespace Decoder

lemma length_sampleVals (frame : Nat → Nat → Nat) (ys0 ys1 xs0 xs1 : Nat) :
    (sampleVals frame ys0 ys1 xs0 xs1).length = (ys1 - ys0) * (xs1 - xs0) := by
  unfold sampleVals
  rw [List.length_flatMap]
  have hmap : List.map (List.length ∘ fun dy =>
        (List.range (xs1 - xs0)).map fun dx => frame (ys0 + dy) (xs0 + dx))
      (List.range (ys1 - ys0)) = List.replicate (ys1 - ys0) (xs1 - xs0) := by
    apply List.eq_replicate_iff.mpr
    refine ⟨by simp, ?_⟩
    intro b hb
    obtain ⟨dy, hdy, rfl⟩ := List.mem_map.mp hb
    simp
  rw [hmap, List.sum_replicate, smul_eq_mul]

lemma mem_sampleVals {v : Nat} {frame : Nat → Nat → Nat} {ys0 ys1 xs0 xs1 : Nat} :
    v ∈ sampleVals frame ys0 ys1 xs0 xs1 ↔
    ∃ y x, ys0 ≤ y ∧ y < ys1 ∧ xs0 ≤ x ∧ x < xs1 ∧ v = frame y x := by
  unfold sampleVals
  simp only [List.mem_flatMap, List.mem_map, List.mem_range]
  constructor
  · rintro ⟨dy, hdy, dx, hdx, rfl⟩
    exact ⟨ys0 + dy, xs0 + dx, by omega, by omega, by omega, by omega, rfl⟩
  · rintro ⟨y, x, h1, h2, h3, h4, rfl⟩
    refine ⟨y - ys0, by omega, x - xs0, by omega, ?_⟩
    congr 1 <;> omega

lemma sampleVals_congr {f1 f2 : Nat → Nat → Nat} {ys0 ys1 xs0 xs1 : Nat}
    (h : ∀ y x, ys0 ≤ y → y < ys1 → xs0 ≤ x → x < xs1 → f1 y x = f2 y x) :
    sampleVals f1 ys0 ys1 xs0 xs1 = sampleVals f2 ys0 ys1 xs0 xs1 := by
  unfold sampleVals
  apply List.flatMap_congr
  intro dy hdy
  apply List.map_congr_left
  intro dx hdx
  rw [List.mem_range] at hdy hdx
  exact h _ _ (by omega) (by omega) (by omega) (by omega)

lemma sampleValue_congr {f1 f2 : Nat → Nat → Nat} {ys0 ys1 xs0 xs1 : Nat}
    (h : ∀ y x, ys0 ≤ y → y < ys1 → xs0 ≤ x → x < xs1 → f1 y x = f2 y x) :
    sampleValue f1 ys0 ys1 xs0 xs1 = sampleValue f2 ys0 ys1 xs0 xs1 := by
  unfold sampleValue
  rw [sampleVals_congr h]

/-- The truncating mean of a constant nonempty rectangle is the constant. -/
lemma sampleValue_const {frame : Nat → Nat → Nat} {ys0 ys1 xs0 xs1 c : Nat}
    (hy : ys0 < ys1) (hx : xs0 < xs1)
    (hv : ∀ y x, ys0 ≤ y → y < ys1 → xs0 ≤ x → x < xs1 → frame y x = c) :
    sampleValue frame ys0 ys1 xs0 xs1 = c := by
  have hrep : sampleVals frame ys0 ys1 xs0 xs1 =
      List.replicate ((ys1 - ys0) * (xs1 - xs0)) c := by
    apply List.eq_replicate_iff.mpr
    refine ⟨length_sampleVals _ _ _ _ _, ?_⟩
    intro b hb
    obtain ⟨y, x, h1, h2, h3, h4, rfl⟩ := mem_sampleVals.mp hb
    exact hv y x h1 h2 h3 h4
  have hpos : 0 < (ys1 - ys0) * (xs1 - xs0) := Nat.mul_pos (by omega) (by omega)
  unfold sampleValue
  rw [if_neg (by omega)]
  simp only [hrep, List.length_replicate, List.sum_replicate, smul_eq_mul]
  rw [if_pos hpos]
  exact Nat.mul_div_cancel_left c hpos

/-- Upper bound for the truncating mean from an elementwise bound. -/
lemma sampleValue_le {frame : Nat → Nat → Nat} {ys0 ys1 xs0 xs1 c : Nat}
    (hv : ∀ v ∈ sampleVals frame ys0 ys1 xs0 xs1, v ≤ c) :
    sampleValue frame ys0 ys1 xs0 xs1 ≤ c := by
  unfold sampleValue
  split
  · exact Nat.zero_le c
  · simp only
    split
    · rename_i hlen
      have hsum := List.sum_le_card_nsmul _ c hv
      rw [smul_eq_mul] at hsum
      calc (sampleVals frame ys0 ys1 xs0 xs1).sum /
            (sampleVals frame ys0 ys1 xs0 xs1).length
          ≤ (sampleVals frame ys0 ys1 xs0 xs1).length * c /
            (sampleVals frame ys0 ys1 xs0 xs1).length := Nat.div_le_div_right hsum
        _ = c := Nat.mul_div_cancel_left c hlen
    · exact Nat.zero_le c

/-- Lower bound for the truncating mean from an elementwise bound, on a
nonempty rectangle. -/
lemma le_sampleValue {frame : Nat → Nat → Nat} {ys0 ys1 xs0 xs1 c : Nat}
    (hy : ys0 < ys1) (hx : xs0 < xs1)
    (hv : ∀ v ∈ sampleVals frame ys0 ys1 xs0 xs1, c ≤ v) :
    c ≤ sampleValue frame ys0 ys1 xs0 xs1 := by
  have hlen : 0 < (sampleVals frame ys0 ys1 xs0 xs1).length := by
    rw [length_sampleVals]
    exact Nat.mul_pos (by omega) (by omega)
  unfold sampleValue
  rw [if_neg (by omega)]
  simp only
  rw [if_pos hlen]
  have hsum := List.card_nsmul_le_sum _ c hv
  rw [smul_eq_mul] at hsum
  exact (Nat.le_div_iff_mul_le hlen).mpr (by rw [Nat.mul_comm]; exact hsum)

/-- Fold congruence for the bit-accumulation loop. -/
lemma foldl_bits_congr (f g : Nat → Nat) :
    ∀ (l : List Nat) (init : Nat), (∀ b ∈ l, f b = g b) →
    l.foldl (fun a b => a * 2 + f b) init = l.foldl (fun a b => a * 2 + g b) init := by
  intro l
  induction l with
  | nil => intro init _; rfl
  | cons b t ih =>
      intro init h
      simp only [List.foldl_cons]
      rw [h b (List.mem_cons_self _ _), ih _ (fun v hv => h v (List.mem_cons_of_mem _ hv))]

lemma decodeByte_congr {f1 f2 : Nat → Nat → Nat} {W H B G cols idx : Nat}
    (h : ∀ bit < 8, bitAt f1 W H B G cols idx bit = bitAt f2 W H B G cols idx bit) :
    decodeByte f1 W H B G cols idx = decodeByte f2 W H B G cols idx := by
  unfold decodeByte
  exact foldl_bits_congr _ _ _ 0 (fun b hb => h b (List.mem_range.mp hb))

/-- Reassembling the 8 extracted bits MSB-first yields the byte back. -/
lemma foldl_bits_reassemble : ∀ b < 256,
    (List.range 8).foldl (fun a bit => a * 2 + b / 2 ^ (7 - bit) % 2) 0 = b := by
  decide

end Decoder

/-! ### Geometry of the stripe rectangles -/

/-- Shorthand for the first grid dimension. -/
def colsOf (W H B G : Nat) : Nat := (grid_dimensions W H B G).1

/-- Shorthand for the second grid dimension. -/
def rowsOf (W H B G : Nat) : Nat := (grid_dimensions W H B G).2

lemma blocks_per_frame_eq (W H B G : Nat) :
    blocks_per_frame W H B G = colsOf W H B G * rowsOf W H B G := rfl

namespace Encoder

lemma stripe_w_of_ge (B : Nat) (hB : 8 ≤ B) : stripe_w B = B / 8 := by
  unfold stripe_w
  omega

lemma sx_nat_eq (x0 B : Nat) (hB : 8 ≤ B) :
    sx ((x0 : Nat) : Int) B = ((x0 + (B - B / 8 * 8) / 2 : Nat) : Int) := by
  unfold sx
  rw [stripe_w_of_ge B hB]
  have h8 : B / 8 * 8 ≤ B := Nat.div_mul_le_self B 8
  have h1 : ((B : Int) - ((B / 8 * 8 : Nat) : Int)) = ((B - B / 8 * 8 : Nat) : Int) := by
    omega
  rw [h1]
  have h2 : Int.fdiv ((B - B / 8 * 8 : Nat) : Int) (2 : Int) =
      (((B - B / 8 * 8) / 2 : Nat) : Int) := by
    rw [show ((2 : Int)) = ((2 : Nat) : Int) from rfl]
    exact (Int.ofNat_fdiv _ _).symm
  rw [h2]
  omega

/-- For `B ≥ 8` the eight centered stripes fit inside the block. -/
lemma stripe_span_le (B bit : Nat) (hB : 8 ≤ B) (hbit : bit < 8) :
    (B - B / 8 * 8) / 2 + bit * (B / 8) + B / 8 ≤ B := by
  have h3 : bit * (B / 8) + B / 8 ≤ B / 8 * 8 := by
    have h4 : (bit + 1) * (B / 8) ≤ 8 * (B / 8) := Nat.mul_le_mul_right _ (by omega)
    have h5 : (bit + 1) * (B / 8) = bit * (B / 8) + B / 8 := by ring
    have h6 : 8 * (B / 8) = B / 8 * 8 := by ring
    omega
  omega

/-- Explicit form of the encoder's clamped fill rectangle when `B ≥ 8` and
the cell fits inside the frame: no clamping happens. -/
lemma stripeWrite_eq (W H B G cols idx b bit : Nat) (hB : 8 ≤ B) (hbit : bit < 8)
    (hx : idx % cols * (B + G) + (B + G) ≤ W)
    (hy : idx / cols * (B + G) + (B + G) ≤ H) :
    stripeWrite W H B G cols idx b bit =
      { x0 := idx % cols * (B + G) + (B - B / 8 * 8) / 2 + bit * (B / 8),
        x1 := idx % cols * (B + G) + (B - B / 8 * 8) / 2 + bit * (B / 8) + B / 8,
        y0 := idx / cols * (B + G),
        y1 := idx / cols * (B + G) + B,
        color := if b / 2 ^ (7 - bit) % 2 = 1 then 255 else 0 } := by
  have hspan := stripe_span_le B bit hB hbit
  simp only [stripeWrite]
  rw [sx_nat_eq _ B hB, stripe_w_of_ge B hB]
  simp only [Rect.mk.injEq]
  refine ⟨?_, ?_, ?_, ?_, trivial⟩ <;> unfold clampTo <;> omega

end Encoder

namespace Decoder

lemma stripe_w_eq_encoder : stripe_w = Encoder.stripe_w := rfl

lemma sx_eq_encoder : sx = Encoder.sx := rfl

/-- Explicit form of the decoder's clamped sampling rectangle when
`B ≥ 8` and the cell fits inside the frame: the same stripe span as the
encoder, vertically cropped by one pixel at each edge. -/
lemma sampleRect_eq (W H B G cols idx bit : Nat) (hB : 8 ≤ B) (hbit : bit < 8)
    (hx : idx % cols * (B + G) + (B + G) ≤ W)
    (hy : idx / cols * (B + G) + (B + G) ≤ H) :
    sampleRect W H B G cols idx bit =
      (idx % cols * (B + G) + (B - B / 8 * 8) / 2 + bit * (B / 8),
       idx % cols * (B + G) + (B - B / 8 * 8) / 2 + bit * (B / 8) + B / 8,
       idx / cols * (B + G) + 1,
       idx / cols * (B + G) + (B - 1)) := by
  have hspan := Encoder.stripe_span_le B bit hB hbit
  simp only [sampleRect, sx_eq_encoder, stripe_w_eq_encoder]
  rw [Encoder.sx_nat_eq _ B hB, Encoder.stripe_w_of_ge B hB]
  simp only [Prod.mk.injEq]
  refine ⟨?_, ?_, ?_, ?_⟩ <;> unfold clampTo <;> omega

end Decoder

/-- Horizontal cell bound: a column index below `cols` keeps its whole
cell inside the frame width. -/
lemma cell_bound_x (W B G cols idx : Nat) (hcols : cols = W / (B + G))
    (hc : idx % cols < cols) :
    idx % cols * (B + G) + (B + G) ≤ W := by
  have h1 : cols * (B + G) ≤ W := by
    rw [hcols]
    exact Nat.div_mul_le_self W (B + G)
  have h2 : (idx % cols + 1) * (B + G) ≤ cols * (B + G) :=
    Nat.mul_le_mul_right _ (by omega)
  have h3 : (idx % cols + 1) * (B + G) = idx % cols * (B + G) + (B + G) := by ring
  omega

/-- Vertical cell bound: a row index below `rows` keeps its whole cell
inside the frame height. -/
lemma cell_bound_y (H B G rows idx cols : Nat) (hrows : rows = H / (B + G))
    (hr : idx / cols < rows) :
    idx / cols * (B + G) + (B + G) ≤ H := by
  have h1 : rows * (B + G) ≤ H := by
    rw [hrows]
    exact Nat.div_mul_le_self H (B + G)
  have h2 : (idx / cols + 1) * (B + G) ≤ rows * (B + G) :=
    Nat.mul_le_mul_right _ (by omega)
  have h3 : (idx / cols + 1) * (B + G) = idx / cols * (B + G) + (B + G) := by ring
  omega

lemma cols_pos_of_idx {W H B G idx : Nat} (hidx : idx < blocks_per_frame W H B G) :
    0 < colsOf W H B G := by
  rcases Nat.eq_zero_or_pos (colsOf W H B G) with h | h
  · rw [blocks_per_frame_eq, h, Nat.zero_mul] at hidx
    omega
  · exact h

lemma row_lt_of_idx {W H B G idx : Nat} (hidx : idx < blocks_per_frame W H B G) :
    idx / colsOf W H B G < rowsOf W H B G := by
  have hc := cols_pos_of_idx hidx
  rw [Nat.div_lt_iff_lt_mul hc]
  rw [blocks_per_frame_eq] at hidx
  have hcomm : colsOf W H B G * rowsOf W H B G = rowsOf W H B G * colsOf W H B G :=
    Nat.mul_comm _ _
  omega

/-- If some write of the frame's write list covers a pixel of the sampling
rectangle of `(idx, bit)` (with `B ≥ 8`), then byte `idx` was actually
rendered and that write is exactly the stripe write of `(idx, bit)`. -/
lemma mem_frameWrites_covers (chunk : List Nat) (W H B G idx bit y x : Nat) (w : Encoder.Rect)
    (hB : 8 ≤ B) (hidx : idx < blocks_per_frame W H B G) (hbit : bit < 8)
    (hy1 : idx / colsOf W H B G * (B + G) + 1 ≤ y)
    (hy2 : y < idx / colsOf W H B G * (B + G) + (B - 1))
    (hx1 : idx % colsOf W H B G * (B + G) + (B - B / 8 * 8) / 2 + bit * (B / 8) ≤ x)
    (hx2 : x < idx % colsOf W H B G * (B + G) + (B - B / 8 * 8) / 2 + bit * (B / 8) + B / 8)
    (hw : w ∈ Encoder.frameWrites chunk W H B G)
    (hcov : w.covers y x) :
    idx < (chunk.take (blocks_per_frame W H B G)).length ∧
    w = Encoder.stripeWrite W H B G (colsOf W H B G) idx
        ((chunk.take (blocks_per_frame W H B G)).getD idx 0) bit := by
  have hcols : colsOf W H B G = W / (B + G) := rfl
  have hrows : rowsOf W H B G = H / (B + G) := rfl
  have hc0 : 0 < colsOf W H B G := cols_pos_of_idx hidx
  set cols := colsOf W H B G with hcolsdef
  set rows := rowsOf W H B G with hrowsdef
  set t := chunk.take (blocks_per_frame W H B G) with htdef
  -- unpack the write's provenance
  rw [Encoder.frameWrites] at hw
  simp only [List.mem_flatMap, List.mem_filterMap, List.mem_range] at hw
  obtain ⟨p, hp, bit', hbit', heq⟩ := hw
  have hfold1 : (grid_dimensions W H B G).1 = cols := rfl
  have hfold2 : (grid_dimensions W H B G).2 = rows := rfl
  rw [hfold1, hfold2] at hp
  rw [hfold1] at heq
  rw [show cols * rows = blocks_per_frame W H B G from rfl, ← htdef] at hp
  -- the guard must have been true and w is a stripe write
  have hw' : w = Encoder.stripeWrite W H B G cols p.1 p.2 bit' := by
    by_cases hg : (Encoder.stripeWrite W H B G cols p.1 p.2 bit').x0 <
        (Encoder.stripeWrite W H B G cols p.1 p.2 bit').x1 ∧
        (Encoder.stripeWrite W H B G cols p.1 p.2 bit').y0 <
        (Encoder.stripeWrite W H B G cols p.1 p.2 bit').y1
    · rw [if_pos hg] at heq
      exact (Option.some.injEq _ _).mp heq |>.symm
    · rw [if_neg hg] at heq
      cases heq
  -- provenance of the enumerated pair
  rw [List.mem_enum_iff_getElem?] at hp
  have hp1 : p.1 < t.length := by
    by_contra hcon
    rw [List.getElem?_eq_none (by omega)] at hp
    cases hp
  have hplt : p.1 < blocks_per_frame W H B G := by
    have := List.length_take (blocks_per_frame W H B G) chunk
    rw [← htdef] at this
    omega
  -- cell bounds for idx and p.1
  have hcx : idx % cols * (B + G) + (B + G) ≤ W :=
    cell_bound_x W B G cols idx hcols (Nat.mod_lt _ hc0)
  have hcy : idx / cols * (B + G) + (B + G) ≤ H :=
    cell_bound_y H B G rows idx cols hrows (row_lt_of_idx hidx)
  have hcx' : p.1 % cols * (B + G) + (B + G) ≤ W :=
    cell_bound_x W B G cols p.1 hcols (Nat.mod_lt _ hc0)
  have hcy' : p.1 / cols * (B + G) + (B + G) ≤ H :=
    cell_bound_y H B G rows p.1 cols hrows (row_lt_of_idx hplt)
  -- explicit coordinates of the covering write
  rw [hw', Encoder.stripeWrite_eq W H B G cols p.1 p.2 bit' hB (by omega) hcx' hcy'] at hcov
  obtain ⟨hcy1, hcy2, hcx1, hcx2⟩ := hcov
  simp only at hcy1 hcy2 hcx1 hcx2
  -- spans
  have hspan := Encoder.stripe_span_le B bit hB hbit
  have hspan' := Encoder.stripe_span_le B bit' hB (by omega)
  -- vertical cell uniqueness
  have hyr : y / (B + G) = idx / cols := by
    apply Nat.div_eq_of_lt_le
    · omega
    · have h5 : (idx / cols + 1) * (B + G) = idx / cols * (B + G) + (B + G) := by ring
      omega
  have hyr' : y / (B + G) = p.1 / cols := by
    apply Nat.div_eq_of_lt_le
    · omega
    · have h5 : (p.1 / cols + 1) * (B + G) = p.1 / cols * (B + G) + (B + G) := by ring
      omega
  -- horizontal cell uniqueness
  have hxc : x / (B + G) = idx % cols := by
    apply Nat.div_eq_of_lt_le
    · omega
    · have h5 : (idx % cols + 1) * (B + G) = idx % cols * (B + G) + (B + G) := by ring
      omega
  have hxc' : x / (B + G) = p.1 % cols := by
    apply Nat.div_eq_of_lt_le
    · omega
    · have h5 : (p.1 % cols + 1) * (B + G) = p.1 % cols * (B + G) + (B + G) := by ring
      omega
  -- grid index equality
  have hr_eq : p.1 / cols = idx / cols := by omega
  have hc_eq : p.1 % cols = idx % cols := by omega
  have e1 := Nat.div_add_mod idx cols
  have e2 := Nat.div_add_mod p.1 cols
  rw [hr_eq, hc_eq] at e2
  have hidx_eq : p.1 = idx := by omega
  -- bit equality
  rw [hidx_eq] at hcx1 hcx2
  rw [hr_eq] at hcy1 hcy2
  have hbit_eq : bit' = bit := by
    rcases Nat.lt_trichotomy bit' bit with hlt | hteq | hgt
    · exfalso
      have hm : (bit' + 1) * (B / 8) ≤ bit * (B / 8) := Nat.mul_le_mul_right _ (by omega)
      have hb1 : (bit' + 1) * (B / 8) = bit' * (B / 8) + B / 8 := by ring
      omega
    · exact hteq
    · exfalso
      have hm : (bit + 1) * (B / 8) ≤ bit' * (B / 8) := Nat.mul_le_mul_right _ (by omega)
      have hb1 : (bit + 1) * (B / 8) = bit * (B / 8) + B / 8 := by ring
      omega
  refine ⟨by omega, ?_⟩
  have hp' : t[idx]? = some p.2 := by
    rw [← hidx_eq]
    exact hp
  have hgetD : t.getD idx 0 = p.2 := by
    rw [List.getD_eq_getElem?_getD, hp']
    rfl
  rw [hw', hidx_eq, hbit_eq, hgetD]

/-- Core rendering characterization for `B ≥ 8`: every pixel inside the
sampling rectangle of bit `bit` of grid index `idx` holds exactly the
stripe color of that bit of the chunk byte at `idx` (0 when the chunk is
shorter than `idx`). -/
lemma render_pixel_eq (chunk : List Nat) (W H B G idx bit y x : Nat)
    (hB : 8 ≤ B) (hidx : idx < blocks_per_frame W H B G) (hbit : bit < 8)
    (hy1 : idx / colsOf W H B G * (B + G) + 1 ≤ y)
    (hy2 : y < idx / colsOf W H B G * (B + G) + (B - 1))
    (hx1 : idx % colsOf W H B G * (B + G) + (B - B / 8 * 8) / 2 + bit * (B / 8) ≤ x)
    (hx2 : x < idx % colsOf W H B G * (B + G) + (B - B / 8 * 8) / 2 + bit * (B / 8) + B / 8) :
    Encoder.render_frame_from_payload chunk W H B G y x =
      if (chunk.take (blocks_per_frame W H B G)).getD idx 0 / 2 ^ (7 - bit) % 2 = 1
      then 255 else 0 := by
  have hcols : colsOf W H B G = W / (B + G) := rfl
  have hrows : rowsOf W H B G = H / (B + G) := rfl
  have hc0 : 0 < colsOf W H B G := cols_pos_of_idx hidx
  set cols := colsOf W H B G with hcolsdef
  set t := chunk.take (blocks_per_frame W H B G) with htdef
  by_cases hlen : idx < t.length
  · -- byte idx was rendered: the unique covering write fixes the pixel
    have hcx : idx % cols * (B + G) + (B + G) ≤ W :=
      cell_bound_x W B G cols idx hcols (Nat.mod_lt _ hc0)
    have hcy : idx / cols * (B + G) + (B + G) ≤ H :=
      cell_bound_y H B G (rowsOf W H B G) idx cols hrows (row_lt_of_idx hidx)
    have hweq := Encoder.stripeWrite_eq W H B G cols idx (t.getD idx 0) bit hB hbit hcx hcy
    have hguard : (Encoder.stripeWrite W H B G cols idx (t.getD idx 0) bit).x0 <
        (Encoder.stripeWrite W H B G cols idx (t.getD idx 0) bit).x1 ∧
        (Encoder.stripeWrite W H B G cols idx (t.getD idx 0) bit).y0 <
        (Encoder.stripeWrite W H B G cols idx (t.getD idx 0) bit).y1 := by
      rw [hweq]
      refine ⟨?_, ?_⟩ <;> simp only <;> omega
    have hmem : Encoder.stripeWrite W H B G cols idx (t.getD idx 0) bit ∈
        Encoder.frameWrites chunk W H B G := by
      rw [Encoder.frameWrites]
      simp only [List.mem_flatMap, List.mem_filterMap, List.mem_range]
      refine ⟨(idx, t.getD idx 0), ?_, bit, hbit, ?_⟩
      · show (idx, t.getD idx 0) ∈ t.enum
        rw [List.mem_enum_iff_getElem?]
        show t[idx]? = some (t.getD idx 0)
        rw [List.getElem?_eq_getElem hlen, List.getD_eq_getElem t 0 hlen]
      · show (if (Encoder.stripeWrite W H B G cols idx (t.getD idx 0) bit).x0 <
            (Encoder.stripeWrite W H B G cols idx (t.getD idx 0) bit).x1 ∧
            (Encoder.stripeWrite W H B G cols idx (t.getD idx 0) bit).y0 <
            (Encoder.stripeWrite W H B G cols idx (t.getD idx 0) bit).y1 then
            some (Encoder.stripeWrite W H B G cols idx (t.getD idx 0) bit) else none) =
            some (Encoder.stripeWrite W H B G cols idx (t.getD idx 0) bit)
        rw [if_pos hguard]
    have hcovmain : (Encoder.stripeWrite W H B G cols idx (t.getD idx 0) bit).covers y x := by
      rw [hweq]
      refine ⟨?_, ?_, ?_, ?_⟩ <;> simp only <;> omega
    have hsame : ∀ w' ∈ Encoder.frameWrites chunk W H B G, w'.covers y x →
        w'.color = (if t.getD idx 0 / 2 ^ (7 - bit) % 2 = 1 then 255 else 0) := by
      intro w' hw' hcov'
      obtain ⟨-, hw'eq⟩ := mem_frameWrites_covers chunk W H B G idx bit y x w'
        hB hidx hbit hy1 hy2 hx1 hx2 hw' hcov'
      rw [hw'eq, hweq]
    exact Encoder.applyWrites_eq_color _ _ y x
      ⟨Encoder.stripeWrite W H B G cols idx (t.getD idx 0) bit, hmem, hcovmain⟩ hsame _
  · -- byte idx was never rendered: the pixel keeps its background 0
    have hnone : ∀ w ∈ Encoder.frameWrites chunk W H B G, ¬ w.covers y x := by
      intro w hw hcov
      obtain ⟨hlt, -⟩ := mem_frameWrites_covers chunk W H B G idx bit y x w
        hB hidx hbit hy1 hy2 hx1 hx2 hw hcov
      exact hlen hlt
    have hbg := Encoder.applyWrites_of_not_covers _ y x hnone (fun _ _ => 0)
    have hgd : t.getD idx 0 = 0 := by
      rw [List.getD_eq_getElem?_getD, List.getElem?_eq_none (by omega)]
      rfl
    rw [show Encoder.render_frame_from_payload chunk W H B G y x =
        Encoder.applyWrites (Encoder.frameWrites chunk W H B G) (fun _ _ => 0) y x from rfl]
    rw [hbg, hgd]
    norm_num

/-- The decoder's per-bit sample of a freshly rendered frame recovers the
rendered bit (`B ≥ 8`, block in range). -/
lemma bitAt_render (chunk : List Nat) (W H B G idx bit : Nat)
    (hB : 8 ≤ B) (hidx : idx < blocks_per_frame W H B G) (hbit : bit < 8) :
    Decoder.bitAt (Encoder.render_frame_from_payload chunk W H B G) W H B G
      (colsOf W H B G) idx bit =
      (chunk.take (blocks_per_frame W H B G)).getD idx 0 / 2 ^ (7 - bit) % 2 := by
  have hcols : colsOf W H B G = W / (B + G) := rfl
  have hrows : rowsOf W H B G = H / (B + G) := rfl
  have hc0 : 0 < colsOf W H B G := cols_pos_of_idx hidx
  set cols := colsOf W H B G with hcolsdef
  set t := chunk.take (blocks_per_frame W H B G) with htdef
  have hcx : idx % cols * (B + G) + (B + G) ≤ W :=
    cell_bound_x W B G cols idx hcols (Nat.mod_lt _ hc0)
  have hcy : idx / cols * (B + G) + (B + G) ≤ H :=
    cell_bound_y H B G (rowsOf W H B G) idx cols hrows (row_lt_of_idx hidx)
  have hrect := Decoder.sampleRect_eq W H B G cols idx bit hB hbit hcx hcy
  unfold Decoder.bitAt
  rw [hrect]
  simp only
  have hcst : Decoder.sampleValue (Encoder.render_frame_from_payload chunk W H B G)
      (idx / cols * (B + G) + 1) (idx / cols * (B + G) + (B - 1))
      (idx % cols * (B + G) + (B - B / 8 * 8) / 2 + bit * (B / 8))
      (idx % cols * (B + G) + (B - B / 8 * 8) / 2 + bit * (B / 8) + B / 8) =
      (if t.getD idx 0 / 2 ^ (7 - bit) % 2 = 1 then 255 else 0) := by
    apply Decoder.sampleValue_const
    · omega
    · omega
    · intro y x h1 h2 h3 h4
      exact render_pixel_eq chunk W H B G idx bit y x hB hidx hbit h1 h2 h3 h4
  rw [hcst]
  by_cases hbv : t.getD idx 0 / 2 ^ (7 - bit) % 2 = 1
  · rw [if_pos hbv, if_pos (by norm_num), hbv]
  · rw [if_neg hbv, if_neg (by norm_num)]
    have hlt : t.getD idx 0 / 2 ^ (7 - bit) % 2 < 2 := Nat.mod_lt _ (by norm_num)
    omega

/-- The decoder recovers a rendered byte exactly (`B ≥ 8`, block in
range, byte value below 256). -/
lemma decodeByte_render (chunk : List Nat) (W H B G idx : Nat)
    (hB : 8 ≤ B) (hidx : idx < blocks_per_frame W H B G)
    (hbyte : (chunk.take (blocks_per_frame W H B G)).getD idx 0 < 256) :
    Decoder.decodeByte (Encoder.render_frame_from_payload chunk W H B G) W H B G
      (colsOf W H B G) idx = (chunk.take (blocks_per_frame W H B G)).getD idx 0 := by
  unfold Decoder.decodeByte
  exact (Decoder.foldl_bits_congr _ _ (List.range 8) 0
      (fun b hb => bitAt_render chunk W H B G idx b hB hidx (List.mem_range.mp hb))).trans
    (Decoder.foldl_bits_reassemble _ hbyte)

/-- The four clamped sampling coordinates never leave the frame. -/
lemma sampleRect_bounds (W H B G cols idx bit : Nat) :
    (Decoder.sampleRect W H B G cols idx bit).1 ≤ W ∧
    (Decoder.sampleRect W H B G cols idx bit).2.1 ≤ W ∧
    (Decoder.sampleRect W H B G cols idx bit).2.2.1 ≤ H ∧
    (Decoder.sampleRect W H B G cols idx bit).2.2.2 ≤ H := by
  simp only [Decoder.sampleRect]
  refine ⟨?_, ?_, ?_, ?_⟩ <;> unfold clampTo <;> omega

/-- Two frames that agree on every in-frame pixel decode to the same
byte at every grid index. -/
lemma decodeByte_frame_congr {f1 f2 : Nat → Nat → Nat} (W H B G cols idx : Nat)
    (h : ∀ y x, y < H → x < W → f1 y x = f2 y x) :
    Decoder.decodeByte f1 W H B G cols idx = Decoder.decodeByte f2 W H B G cols idx := by
  apply Decoder.decodeByte_congr
  intro bit hbit
  have hbounds := sampleRect_bounds W H B G cols idx bit
  unfold Decoder.bitAt
  rcases hsr : Decoder.sampleRect W H B G cols idx bit with ⟨xs0, xs1, ys0, ys1⟩
  rw [hsr] at hbounds
  simp only at hbounds ⊢
  rw [Decoder.sampleValue_congr
    (fun y x h1 h2 h3 h4 => h y x (by omega) (by omega))]

/-! ### Serialization and chunking -/

lemma rowmajor_lt (W H y x : Nat) (hy : y < H) (hx : x < W) : y * W + x < H * W := by
  have h1 : (y + 1) * W ≤ H * W := Nat.mul_le_mul_right _ (by omega)
  have h2 : (y + 1) * W = y * W + W := by ring
  omega

lemma length_toBytes (img : Nat → Nat → Nat) (W H : Nat) :
    (Encoder.toBytes img W H).length = H * W := by
  unfold Encoder.toBytes
  rw [List.length_map, List.length_range]

lemma toBytes_getD (img : Nat → Nat → Nat) (W H y x : Nat) (hy : y < H) (hx : x < W) :
    (Encoder.toBytes img W H).getD (y * W + x) 0 = img y x := by
  have hlt : y * W + x < H * W := rowmajor_lt W H y x hy hx
  have hW : 0 < W := by omega
  unfold Encoder.toBytes
  rw [List.getD_eq_getElem _ _ (by simpa using hlt), List.getElem_map, List.getElem_range]
  have hdiv : (y * W + x) / W = y := by
    rw [Nat.add_comm, Nat.add_mul_div_right x y hW, Nat.div_eq_of_lt hx]
    omega
  have hmod : (y * W + x) % W = x := by
    rw [Nat.add_comm, Nat.add_mul_mod_self_right, Nat.mod_eq_of_lt hx]
  rw [hdiv, hmod]

/-- Indexing into a concatenation of equal-length blocks. -/
lemma getD_flatten_uniform {α : Type} (d : α) (m : Nat) :
    ∀ (l : List (List α)) (f j : Nat), (∀ a ∈ l, a.length = m) → f < l.length → j < m →
    l.flatten.getD (f * m + j) d = (l.getD f []).getD j d := by
  intro l
  induction l with
  | nil =>
      intro f j _ hf _
      simp at hf
  | cons a t ih =>
      intro f j hlen hf hj
      rw [List.flatten_cons]
      cases f with
      | zero =>
          rw [Nat.zero_mul, Nat.zero_add]
          rw [List.getD_append _ _ _ _ (by rw [hlen a (List.mem_cons_self _ _)]; omega)]
          rfl
      | succ f' =>
          have ha := hlen a (List.mem_cons_self _ _)
          have hbig : a.length ≤ (f' + 1) * m + j := by
            have hb : (f' + 1) * m = f' * m + m := by ring
            omega
          rw [List.getD_append_right _ _ _ _ hbig]
          have harith : (f' + 1) * m + j - a.length = f' * m + j := by
            have hb : (f' + 1) * m = f' * m + m := by ring
            omega
          rw [harith, ih f' j (fun b hb => hlen b (List.mem_cons_of_mem _ hb))
            (by simpa using hf) hj]
          rfl

/-- A pixel of a concatenation of serialized frames is the pixel of the
corresponding frame. -/
lemma pixel_flatMap_toBytes (gimg : Nat → (Nat → Nat → Nat)) (W H n f y x : Nat)
    (hf : f < n) (hy : y < H) (hx : x < W) :
    Decoder.pixel ((List.range n).flatMap fun i => Encoder.toBytes (gimg i) W H) W H f y x =
      gimg f y x := by
  unfold Decoder.pixel
  rw [List.flatMap_def]
  have hidx : f * (W * H) + y * W + x = f * (H * W) + (y * W + x) := by
    rw [Nat.mul_comm W H]
    omega
  rw [hidx]
  rw [getD_flatten_uniform 0 (H * W) _ f (y * W + x)
    (fun a ha => by
      obtain ⟨i, hi, rfl⟩ := List.mem_map.mp ha
      exact length_toBytes _ _ _)
    (by simpa using hf) (rowmajor_lt W H y x hy hx)]
  rw [show (List.map (fun i => Encoder.toBytes (gimg i) W H) (List.range n)).getD f [] =
      Encoder.toBytes (gimg f) W H from by
    rw [List.getD_eq_getElem _ _ (by simpa using hf), List.getElem_map, List.getElem_range]]
  exact toBytes_getD _ _ _ _ _ hy hx

lemma chunkAt_length (payload : List Nat) (bpf f : Nat) :
    (Encoder.chunkAt payload bpf f).length = bpf := by
  unfold Encoder.chunkAt
  simp only [List.length_append, List.length_replicate, List.length_take, List.length_drop]
  omega

lemma chunkAt_mem_lt (payload : List Nat) (bpf f : Nat) (hP : ∀ b ∈ payload, b < 256) :
    ∀ b ∈ Encoder.chunkAt payload bpf f, b < 256 := by
  intro b hb
  unfold Encoder.chunkAt at hb
  simp only at hb
  rcases List.mem_append.mp hb with h | h
  · exact hP b (List.drop_subset _ _ (List.take_subset _ _ h))
  · rw [List.eq_of_mem_replicate h]
    norm_num

lemma le_frames_needed_mul (len bpf : Nat) (hbpf : 0 < bpf) :
    len ≤ Encoder.frames_needed len bpf * bpf := by
  unfold Encoder.frames_needed
  rcases Nat.eq_zero_or_pos len with h | h
  · subst h
    exact Nat.zero_le _
  · have h1 : len + bpf - 1 = (len - 1) + bpf := by omega
    rw [h1, Nat.add_div_right _ hbpf]
    have h2 := Nat.div_add_mod (len - 1) bpf
    have h3 : (len - 1) % bpf < bpf := Nat.mod_lt _ hbpf
    have h4 : ((len - 1) / bpf + 1) * bpf = bpf * ((len - 1) / bpf) + bpf := by ring
    omega

/-- Concatenating the first `n` zero-padded chunks yields the payload
prefix of length `n * bpf`, padded with zeros past the payload's end. -/
lemma flatMap_chunkAt (payload : List Nat) (bpf : Nat) :
    ∀ n, (List.range n).flatMap (Encoder.chunkAt payload bpf) =
      payload.take (n * bpf) ++ List.replicate (n * bpf - payload.length) 0 := by
  intro n
  induction n with
  | zero => simp
  | succ n ih =>
      rw [List.range_succ, List.flatMap_append, ih]
      have hone : List.flatMap [n] (Encoder.chunkAt payload bpf) =
          Encoder.chunkAt payload bpf n := by
        simp
      rw [hone]
      have hsucc : (n + 1) * bpf = n * bpf + bpf := by ring
      rcases le_or_lt payload.length (n * bpf) with hle | hgt
      · have htake1 : payload.take (n * bpf) = payload := List.take_of_length_le hle
        have htake2 : payload.take ((n + 1) * bpf) = payload :=
          List.take_of_length_le (by omega)
        have hdrop : payload.drop (n * bpf) = [] := List.drop_eq_nil_of_le hle
        unfold Encoder.chunkAt
        rw [hdrop]
        simp only [List.take_nil, List.nil_append, List.length_nil, Nat.sub_zero]
        rw [htake1, htake2, List.append_assoc, ← List.replicate_add]
        have hcount : n * bpf - payload.length + bpf = (n + 1) * bpf - payload.length := by
          omega
        rw [hcount]
      · have hz : n * bpf - payload.length = 0 := by omega
        rw [hz, List.replicate_zero, List.append_nil]
        unfold Encoder.chunkAt
        simp only [List.length_take, List.length_drop]
        rw [← List.append_assoc, ← List.take_add]
        have hcount : bpf - min bpf (payload.length - n * bpf) =
            (n + 1) * bpf - payload.length := by
          omega
        rw [hcount, ← hsucc]

lemma range_map_getD (l : List Nat) (n : Nat) (hn : l.length = n) :
    (List.range n).map (fun i => l.getD i 0) = l := by
  apply List.ext_getElem
  · simp [hn]
  · intro i h1 h2
    simp only [List.getElem_map, List.getElem_range]
    have hi : i < l.length := by
      simp only [List.length_map, List.length_range] at h1
      omega
    exact List.getD_eq_getElem l 0 hi

/-! ### Header and pipeline facts -/

lemma pack64_mem_lt (n : Nat) : ∀ b ∈ Encoder.pack64 n, b < 256 := by
  intro b hb
  unfold Encoder.pack64 at hb
  simp only [List.mem_cons, List.not_mem_nil, or_false] at hb
  rcases hb with h | h | h | h | h | h | h | h <;> subst h <;>
    exact Nat.mod_lt _ (by norm_num)

lemma frame_payload_mem_lt (P : List Nat) (hP : ∀ b ∈ P, b < 256) :
    ∀ b ∈ Encoder.frame_payload P, b < 256 := by
  intro b hb
  unfold Encoder.frame_payload Encoder.header at hb
  simp only [List.mem_append] at hb
  rcases hb with ((h | h) | h) | h
  · simp only [MAGIC, List.mem_cons, List.not_mem_nil, or_false] at h
    omega
  · exact pack64_mem_lt _ b h
  · exact pack64_mem_lt _ b h
  · exact hP b h

lemma header_length (P : List Nat) : (Encoder.header P).length = 20 := rfl

lemma frame_payload_length (P : List Nat) :
    (Encoder.frame_payload P).length = 20 + P.length := by
  unfold Encoder.frame_payload
  rw [List.length_append, header_length]

lemma frame_size_pos (W H B G : Nat) (hB : 8 ≤ B) (hbpf : 1 ≤ blocks_per_frame W H B G) :
    0 < W * H ∧ B + G ≤ W ∧ B + G ≤ H := by
  rw [blocks_per_frame_eq] at hbpf
  have hc : 0 < colsOf W H B G := by
    rcases Nat.eq_zero_or_pos (colsOf W H B G) with h | h
    · rw [h, Nat.zero_mul] at hbpf
      omega
    · exact h
  have hr : 0 < rowsOf W H B G := by
    rcases Nat.eq_zero_or_pos (rowsOf W H B G) with h | h
    · rw [h, Nat.mul_zero] at hbpf
      omega
    · exact h
  have hcW : B + G ≤ W := by
    have he : colsOf W H B G = W / (B + G) := rfl
    rw [he] at hc
    exact (Nat.one_le_div_iff (by omega)).mp hc
  have hcH : B + G ≤ H := by
    have he : rowsOf W H B G = H / (B + G) := rfl
    rw [he] at hr
    exact (Nat.one_le_div_iff (by omega)).mp hr
  exact ⟨Nat.mul_pos (by omega) (by omega), hcW, hcH⟩

lemma encode_length (P : List Nat) (W H B G : Nat) :
    (Encoder.encode_pipeline P W H B G).length =
      Encoder.frames_needed (Encoder.frame_payload P).length (blocks_per_frame W H B G) *
        (H * W) := by
  unfold Encoder.encode_pipeline
  simp only
  rw [List.length_flatMap]
  have hmap : List.map (List.length ∘ fun f =>
      Encoder.toBytes (Encoder.render_frame_from_payload
        (Encoder.chunkAt (Encoder.frame_payload P) (blocks_per_frame W H B G) f) W H B G) W H)
      (List.range (Encoder.frames_needed (Encoder.frame_payload P).length
        (blocks_per_frame W H B G))) =
      List.replicate (Encoder.frames_needed (Encoder.frame_payload P).length
        (blocks_per_frame W H B G)) (H * W) := by
    apply List.eq_replicate_iff.mpr
    refine ⟨by simp, ?_⟩
    intro b hb
    obtain ⟨i, hi, rfl⟩ := List.mem_map.mp hb
    exact length_toBytes _ _ _
  rw [hmap, List.sum_replicate, smul_eq_mul]

/-- A pixel of the encoded stream is the corresponding rendered pixel. -/
lemma pixel_encode (P : List Nat) (W H B G f y x : Nat)
    (hf : f < Encoder.frames_needed (Encoder.frame_payload P).length (blocks_per_frame W H B G))
    (hy : y < H) (hx : x < W) :
    Decoder.pixel (Encoder.encode_pipeline P W H B G) W H f y x =
      Encoder.render_frame_from_payload
        (Encoder.chunkAt (Encoder.frame_payload P) (blocks_per_frame W H B G) f) W H B G y x := by
  unfold Encoder.encode_pipeline
  simp only
  exact pixel_flatMap_toBytes _ W H _ f y x hf hy hx

/-- Decoding the encoded stream yields the zero-padded framed payload. -/
lemma decode_encode (P : List Nat) (W H B G : Nat) (hB : 8 ≤ B)
    (hbpf : 1 ≤ blocks_per_frame W H B G)
    (hPm : ∀ b ∈ Encoder.frame_payload P, b < 256) :
    Decoder.decode_frames_from_raw_bytes (Encoder.encode_pipeline P W H B G) W H B G =
      (Encoder.frame_payload P).take
          (Encoder.frames_needed (Encoder.frame_payload P).length (blocks_per_frame W H B G) *
            blocks_per_frame W H B G) ++
        List.replicate
          (Encoder.frames_needed (Encoder.frame_payload P).length (blocks_per_frame W H B G) *
            blocks_per_frame W H B G - (Encoder.frame_payload P).length) 0 := by
  obtain ⟨hWH, hcW, hcH⟩ := frame_size_pos W H B G hB hbpf
  unfold Decoder.decode_frames_from_raw_bytes
  simp only
  rw [encode_length P W H B G]
  have htot : Encoder.frames_needed (Encoder.frame_payload P).length
      (blocks_per_frame W H B G) * (H * W) / (W * H) =
      Encoder.frames_needed (Encoder.frame_payload P).length (blocks_per_frame W H B G) := by
    rw [Nat.mul_comm H W]
    exact Nat.mul_div_cancel _ hWH
  rw [htot]
  rw [← flatMap_chunkAt (Encoder.frame_payload P) (blocks_per_frame W H B G)]
  apply List.flatMap_congr
  intro f hf
  rw [List.mem_range] at hf
  rw [show (grid_dimensions W H B G).1 * (grid_dimensions W H B G).2 =
      blocks_per_frame W H B G from rfl]
  have hchunklen := chunkAt_length (Encoder.frame_payload P) (blocks_per_frame W H B G) f
  rw [← range_map_getD (Encoder.chunkAt (Encoder.frame_payload P)
    (blocks_per_frame W H B G) f) (blocks_per_frame W H B G) hchunklen]
  apply List.map_congr_left
  intro idx hidx
  rw [List.mem_range] at hidx
  have hpix : ∀ y x, y < H → x < W →
      (fun y x => Decoder.pixel (Encoder.encode_pipeline P W H B G) W H f y x) y x =
      Encoder.render_frame_from_payload
        (Encoder.chunkAt (Encoder.frame_payload P) (blocks_per_frame W H B G) f)
        W H B G y x := by
    intro y x hy hx
    exact pixel_encode P W H B G f y x hf hy hx
  rw [decodeByte_frame_congr W H B G (grid_dimensions W H B G).1 idx hpix]
  have htake : (Encoder.chunkAt (Encoder.frame_payload P)
      (blocks_per_frame W H B G) f).take (blocks_per_frame W H B G) =
      Encoder.chunkAt (Encoder.frame_payload P) (blocks_per_frame W H B G) f :=
    List.take_of_length_le (by rw [hchunklen])
  have hbyte : (Encoder.chunkAt (Encoder.frame_payload P)
      (blocks_per_frame W H B G) f).getD idx 0 < 256 := by
    rcases Nat.lt_or_ge idx (Encoder.chunkAt (Encoder.frame_payload P)
        (blocks_per_frame W H B G) f).length with hlt | hge
    · rw [List.getD_eq_getElem _ _ hlt]
      exact chunkAt_mem_lt _ _ _ hPm _ (List.getElem_mem _)
    · rw [List.getD_eq_getElem?_getD, List.getElem?_eq_none hge]
      norm_num
  have h2 := decodeByte_render (Encoder.chunkAt (Encoder.frame_payload P)
      (blocks_per_frame W H B G) f) W H B G idx hB hidx (by rw [htake]; exact hbyte)
  rw [htake] at h2
  exact h2

/-! ### Claim C1: round-trip identity -/

/-- C1, amended: for every byte sequence `P` and every geometry with
`block_size ≥ 8` and `blocks_per_frame ≥ 1`, framing `P` with the 20-byte
header, splitting into `blocks_per_frame`-byte zero-padded chunks,
rendering each chunk with `render_frame_from_payload`, decoding the
concatenated rasters with `decode_frames_from_raw_bytes`, then slicing
the body to `compressed_length = |P|` bytes after the 20-byte header,
reproduces `P` exactly. -/
theorem C1_round_trip (P : List Nat) (W H B G : Nat) (hB : 8 ≤ B)
    (hbpf : 1 ≤ blocks_per_frame W H B G) (hP : ∀ b ∈ P, b < 256) :
    ((Decoder.decode_frames_from_raw_bytes (Encoder.encode_pipeline P W H B G)
        W H B G).drop 20).take P.length = P := by
  have hPm := frame_payload_mem_lt P hP
  rw [decode_encode P W H B G hB hbpf hPm]
  have hple : (Encoder.frame_payload P).length ≤
      Encoder.frames_needed (Encoder.frame_payload P).length (blocks_per_frame W H B G) *
        blocks_per_frame W H B G :=
    le_frames_needed_mul _ _ (by omega)
  rw [List.take_of_length_le hple]
  rw [show Encoder.frame_payload P = Encoder.header P ++ P from rfl]
  rw [List.append_assoc]
  rw [List.drop_left' (header_length P)]
  rw [List.take_left' rfl]

/-- C1 counterexample to the claim as stated: the geometry `8×8`,
`block_size = 1`, `gutter = 1` is valid in the claim's sense
(`blocks_per_frame = 16 ≥ 1`), yet the pipeline loses the payload
`[255]`: the decoder's sampling rectangles are empty for `block_size = 1`
(vertical crop `[y0+1, y0+0)`), so every bit decodes to 0. -/
theorem C1_counterexample :
    1 ≤ blocks_per_frame 8 8 1 1 ∧
    ((Decoder.decode_frames_from_raw_bytes (Encoder.encode_pipeline [255] 8 8 1 1)
        8 8 1 1).drop 20).take 1 ≠ [255] := by
  constructor
  · decide
  · decide

/-- C1 witness: concrete round trip at `9×9`, block 8, gutter 1, payload
`[165]`. -/
theorem C1_round_trip_witness :
    ((Decoder.decode_frames_from_raw_bytes (Encoder.encode_pipeline [165] 9 9 8 1)
        9 9 8 1).drop 20).take 1 = [165] :=
  C1_round_trip [165] 9 9 8 1 (by norm_num) (by decide) (by decide)

/-! ### Decode noninterference -/

/-- The decoded stream depends only on the pixels inside the clamped
sampling rectangles of the first `⌊len/(W*H)⌋` frames. -/
lemma decode_eq_of_agree (raw1 raw2 : List Nat) (W H B G : Nat)
    (htot : raw1.length / (W * H) = raw2.length / (W * H))
    (hpix : ∀ f idx bit xs0 xs1 ys0 ys1 y x,
      f < raw1.length / (W * H) →
      idx < blocks_per_frame W H B G →
      bit < 8 →
      Decoder.sampleRect W H B G (colsOf W H B G) idx bit = (xs0, xs1, ys0, ys1) →
      ys0 ≤ y → y < ys1 → xs0 ≤ x → x < xs1 →
      Decoder.pixel raw1 W H f y x = Decoder.pixel raw2 W H f y x) :
    Decoder.decode_frames_from_raw_bytes raw1 W H B G =
      Decoder.decode_frames_from_raw_bytes raw2 W H B G := by
  unfold Decoder.decode_frames_from_raw_bytes
  simp only
  rw [← htot]
  apply List.flatMap_congr
  intro f hf
  rw [List.mem_range] at hf
  apply List.map_congr_left
  intro idx hidx
  rw [List.mem_range] at hidx
  apply Decoder.decodeByte_congr
  intro bit hbit
  unfold Decoder.bitAt
  rcases hsr : Decoder.sampleRect W H B G (grid_dimensions W H B G).1 idx bit with
    ⟨xs0, xs1, ys0, ys1⟩
  simp only
  rw [Decoder.sampleValue_congr
    (fun y x h1 h2 h3 h4 => hpix f idx bit xs0 xs1 ys0 ys1 y x hf hidx hbit hsr h1 h2 h3 h4)]

lemma decode_length (raw : List Nat) (W H B G : Nat) :
    (Decoder.decode_frames_from_raw_bytes raw W H B G).length =
      raw.length / (W * H) * blocks_per_frame W H B G := by
  unfold Decoder.decode_frames_from_raw_bytes
  simp only
  rw [List.length_flatMap]
  have hmap : List.map (List.length ∘ fun f =>
      (List.range ((grid_dimensions W H B G).1 * (grid_dimensions W H B G).2)).map fun idx =>
        Decoder.decodeByte (fun y x => Decoder.pixel raw W H f y x) W H B G
          (grid_dimensions W H B G).1 idx)
      (List.range (raw.length / (W * H))) =
      List.replicate (raw.length / (W * H)) (blocks_per_frame W H B G) := by
    apply List.eq_replicate_iff.mpr
    refine ⟨by simp, ?_⟩
    intro b hb
    obtain ⟨i, hi, rfl⟩ := List.mem_map.mp hb
    simp only [Function.comp_apply, List.length_map, List.length_range]
    rfl
  rw [hmap, List.sum_replicate, smul_eq_mul]

/-! ### Claim C5: dimension handling -/

/-- C5 counterexample to the claim as stated: a 257-byte recovered stream
is not a multiple of `width*height = 256`, yet `decode_frames_from_raw_bytes`
raises nothing: it silently drops the trailing byte and decodes the one
complete frame to a byte. -/
theorem C5_counterexample :
    ¬ (16 * 16 ∣ 257) ∧
    Decoder.decode_frames_from_raw_bytes (List.replicate 257 0) 16 16 8 1 = [0] := by
  constructor
  · decide
  · decide

/-- C5, amended: the decode pipeline performs no dimension check; for any
raw byte stream it decodes exactly `⌊len/(width*height)⌋` frames —
silently ignoring a trailing partial frame — and emits
`⌊len/(width*height)⌋ * blocks_per_frame` bytes. -/
theorem C5_truncating_decode (raw : List Nat) (W H B G : Nat) (hWH : 0 < W * H) :
    Decoder.decode_frames_from_raw_bytes raw W H B G =
      Decoder.decode_frames_from_raw_bytes
        (raw.take (raw.length / (W * H) * (W * H))) W H B G ∧
    (Decoder.decode_frames_from_raw_bytes raw W H B G).length =
      raw.length / (W * H) * blocks_per_frame W H B G := by
  constructor
  · have hmle : raw.length / (W * H) * (W * H) ≤ raw.length := Nat.div_mul_le_self _ _
    have htake : (raw.take (raw.length / (W * H) * (W * H))).length =
        raw.length / (W * H) * (W * H) := by
      rw [List.length_take]
      omega
    apply decode_eq_of_agree
    · rw [htake, Nat.mul_div_cancel _ hWH]
    · intro f idx bit xs0 xs1 ys0 ys1 y x hf hidx hbit hsr h1 h2 h3 h4
      have hb := sampleRect_bounds W H B G (colsOf W H B G) idx bit
      rw [hsr] at hb
      simp only at hb
      have hyH : y < H := by omega
      have hxW : x < W := by omega
      have hrow : y * W + x < H * W := rowmajor_lt W H y x hyH hxW
      have hmul : (f + 1) * (W * H) ≤ raw.length / (W * H) * (W * H) :=
        Nat.mul_le_mul_right _ (by omega)
      have hsucc : (f + 1) * (W * H) = f * (W * H) + W * H := by ring
      have hcomm : H * W = W * H := Nat.mul_comm _ _
      have hn : f * (W * H) + y * W + x < raw.length / (W * H) * (W * H) := by
        omega
      unfold Decoder.pixel
      rw [List.getD_eq_getElem raw 0 (by omega),
        List.getD_eq_getElem _ 0 (by rw [List.length_take]; omega)]
      exact (List.getElem_take raw).symm
  · exact decode_length raw W H B G

/-- C5 witness: a stream of three complete frames plus a ragged tail at a
tiny geometry. -/
theorem C5_truncating_decode_witness :
    Decoder.decode_frames_from_raw_bytes (List.replicate 29 255) 3 3 2 1 =
      Decoder.decode_frames_from_raw_bytes
        ((List.replicate 29 255).take (29 / (3 * 3) * (3 * 3))) 3 3 2 1 ∧
    (Decoder.decode_frames_from_raw_bytes (List.replicate 29 255) 3 3 2 1).length =
      29 / (3 * 3) * blocks_per_frame 3 3 2 1 := by
  have h := C5_truncating_decode (List.replicate 29 255) 3 3 2 1 (by norm_num)
  simpa using h

/-! ### Claim C7: zero-capacity configurations -/

/-- C7 counterexample to the claim as stated: the geometry `4×4` with
block 8 and gutter 1 has `blocks_per_frame = 0`, yet nothing rejects it:
the decoder consumes a full 16-byte frame and silently returns the empty
byte string instead of signalling a ConfigurationError. -/
theorem C7_counterexample :
    blocks_per_frame 4 4 8 1 = 0 ∧
    Decoder.decode_frames_from_raw_bytes (List.replicate 16 255) 4 4 8 1 = [] := by
  constructor
  · decide
  · decide

/-- C7, amended: zero-capacity configurations are not rejected — for every
raw input the decoder simply returns the empty byte string (and on the
encoder side `frames_needed` divides by `blocks_per_frame = 0`, an
unhandled ZeroDivisionError rather than a ConfigurationError). -/
theorem C7_zero_capacity (raw : List Nat) (W H B G : Nat)
    (h : blocks_per_frame W H B G = 0) :
    Decoder.decode_frames_from_raw_bytes raw W H B G = [] := by
  unfold Decoder.decode_frames_from_raw_bytes
  simp only
  have h0 : (grid_dimensions W H B G).1 * (grid_dimensions W H B G).2 = 0 := h
  rw [h0]
  simp

/-- C7 witness: a `5×3` frame with block 8 cannot hold any block; decoding
32 arbitrary bytes yields nothing. -/
theorem C7_zero_capacity_witness :
    Decoder.decode_frames_from_raw_bytes (List.replicate 32 7) 5 3 8 0 = [] :=
  C7_zero_capacity (List.replicate 32 7) 5 3 8 0 (by decide)

/-! ### Claim C10: noninterference of unsampled pixels -/

/-- C10: two raw streams of identical length that agree on every pixel
inside every bit's clamped sampling rectangle `[xs0,xs1) × [ys0,ys1)`
(over all frames, grid indices and bit positions) decode to identical
byte streams: gutters, guard rows and unused margins never influence the
output. -/
theorem C10_noninterference (raw1 raw2 : List Nat) (W H B G : Nat)
    (hlen : raw1.length = raw2.length)
    (hpix : ∀ f idx bit xs0 xs1 ys0 ys1 y x,
      f < raw1.length / (W * H) →
      idx < blocks_per_frame W H B G →
      bit < 8 →
      Decoder.sampleRect W H B G (colsOf W H B G) idx bit = (xs0, xs1, ys0, ys1) →
      ys0 ≤ y → y < ys1 → xs0 ≤ x → x < xs1 →
      Decoder.pixel raw1 W H f y x = Decoder.pixel raw2 W H f y x) :
    Decoder.decode_frames_from_raw_bytes raw1 W H B G =
      Decoder.decode_frames_from_raw_bytes raw2 W H B G :=
  decode_eq_of_agree raw1 raw2 W H B G (by rw [hlen]) hpix

/-- C10 witness: two 16×16 rasters differing only in the bottom-right
pixel — which lies in no sampling rectangle — decode identically. -/
theorem C10_noninterference_witness :
    Decoder.decode_frames_from_raw_bytes (List.replicate 256 0) 16 16 8 1 =
      Decoder.decode_frames_from_raw_bytes (List.replicate 255 0 ++ [255]) 16 16 8 1 := by
  apply C10_noninterference
  · simp
  · intro f idx bit xs0 xs1 ys0 ys1 y x hf hidx hbit hsr h1 h2 h3 h4
    have hf0 : f = 0 := by
      simp only [List.length_replicate] at hf
      omega
    have hidx0 : idx = 0 := by
      have hb1 : blocks_per_frame 16 16 8 1 = 1 := by decide
      omega
    subst hf0
    subst hidx0
    have hval : Decoder.sampleRect 16 16 8 1 (colsOf 16 16 8 1) 0 bit =
        (0 % 1 * (8 + 1) + (8 - 8 / 8 * 8) / 2 + bit * (8 / 8),
         0 % 1 * (8 + 1) + (8 - 8 / 8 * 8) / 2 + bit * (8 / 8) + 8 / 8,
         0 / 1 * (8 + 1) + 1, 0 / 1 * (8 + 1) + (8 - 1)) :=
      Decoder.sampleRect_eq 16 16 8 1 1 0 bit (by norm_num) hbit (by norm_num) (by norm_num)
    rw [hval] at hsr
    simp only [Prod.mk.injEq] at hsr
    obtain ⟨e1, e2, e3, e4⟩ := hsr
    unfold Decoder.pixel
    have g1 : (List.replicate 256 0).getD (0 * (16 * 16) + y * 16 + x) 0 = 0 := by
      rw [List.getD_eq_getElem _ 0 (by simp only [List.length_replicate]; omega),
        List.getElem_replicate]
    have g2 : (List.replicate 255 0 ++ [255]).getD (0 * (16 * 16) + y * 16 + x) 0 = 0 := by
      rw [List.getD_append _ _ _ _ (by simp only [List.length_replicate]; omega)]
      rw [List.getD_eq_getElem _ 0 (by simp only [List.length_replicate]; omega),
        List.getElem_replicate]
    rw [g1, g2]

/-! ### Claim C2: bounded-noise tolerance -/

lemma pixel_zero_frame (raw : List Nat) (W H y x : Nat) :
    Decoder.pixel raw W H 0 y x = raw.getD (y * W + x) 0 := by
  unfold Decoder.pixel
  rw [Nat.zero_mul, Nat.zero_add]

/-- Per-bit threshold stability: a ±40 perturbation of a rendered frame
(with `B ≥ 8`) leaves every sampled bit unchanged, because sampled means
stay in `[0,40]` or `[215,255]`. -/
lemma bitAt_noise (chunk noisy : List Nat) (W H B G idx bit : Nat)
    (hB : 8 ≤ B) (hidx : idx < blocks_per_frame W H B G) (hbit : bit < 8)
    (hval : ∀ i < W * H, noisy.getD i 0 ≤ 255 ∧
      (noisy.getD i 0 : Int) -
        ((Encoder.toBytes (Encoder.render_frame_from_payload chunk W H B G) W H).getD i 0 : Int)
          ≤ 40 ∧
      ((Encoder.toBytes (Encoder.render_frame_from_payload chunk W H B G) W H).getD i 0 : Int) -
        (noisy.getD i 0 : Int) ≤ 40) :
    Decoder.bitAt (fun y x => Decoder.pixel noisy W H 0 y x) W H B G
      (colsOf W H B G) idx bit =
    Decoder.bitAt (fun y x =>
        Decoder.pixel (Encoder.toBytes (Encoder.render_frame_from_payload chunk W H B G) W H)
          W H 0 y x) W H B G (colsOf W H B G) idx bit := by
  have hcols : colsOf W H B G = W / (B + G) := rfl
  have hrows : rowsOf W H B G = H / (B + G) := rfl
  have hc0 : 0 < colsOf W H B G := cols_pos_of_idx hidx
  set cols := colsOf W H B G with hcolsdef
  have hcx : idx % cols * (B + G) + (B + G) ≤ W :=
    cell_bound_x W B G cols idx hcols (Nat.mod_lt _ hc0)
  have hcy : idx / cols * (B + G) + (B + G) ≤ H :=
    cell_bound_y H B G (rowsOf W H B G) idx cols hrows (row_lt_of_idx hidx)
  have hrect := Decoder.sampleRect_eq W H B G cols idx bit hB hbit hcx hcy
  unfold Decoder.bitAt
  rw [hrect]
  simp only
  have hcleanpix : ∀ y x,
      idx / cols * (B + G) + 1 ≤ y → y < idx / cols * (B + G) + (B - 1) →
      idx % cols * (B + G) + (B - B / 8 * 8) / 2 + bit * (B / 8) ≤ x →
      x < idx % cols * (B + G) + (B - B / 8 * 8) / 2 + bit * (B / 8) + B / 8 →
      (fun y x =>
        Decoder.pixel (Encoder.toBytes (Encoder.render_frame_from_payload chunk W H B G) W H)
          W H 0 y x) y x =
        (if (chunk.take (blocks_per_frame W H B G)).getD idx 0 / 2 ^ (7 - bit) % 2 = 1
          then 255 else 0) := by
    intro y x h1 h2 h3 h4
    have hspan := Encoder.stripe_span_le B bit hB hbit
    have hyH : y < H := by omega
    have hxW : x < W := by omega
    simp only
    rw [pixel_zero_frame, toBytes_getD _ _ _ _ _ hyH hxW]
    exact render_pixel_eq chunk W H B G idx bit y x hB hidx hbit h1 h2 h3 h4
  have hcleansv : Decoder.sampleValue (fun y x =>
      Decoder.pixel (Encoder.toBytes (Encoder.render_frame_from_payload chunk W H B G) W H)
        W H 0 y x)
      (idx / cols * (B + G) + 1) (idx / cols * (B + G) + (B - 1))
      (idx % cols * (B + G) + (B - B / 8 * 8) / 2 + bit * (B / 8))
      (idx % cols * (B + G) + (B - B / 8 * 8) / 2 + bit * (B / 8) + B / 8) =
      (if (chunk.take (blocks_per_frame W H B G)).getD idx 0 / 2 ^ (7 - bit) % 2 = 1
        then 255 else 0) :=
    Decoder.sampleValue_const (by omega) (by omega) hcleanpix
  have hnoisy : ∀ v ∈ Decoder.sampleVals (fun y x => Decoder.pixel noisy W H 0 y x)
      (idx / cols * (B + G) + 1) (idx / cols * (B + G) + (B - 1))
      (idx % cols * (B + G) + (B - B / 8 * 8) / 2 + bit * (B / 8))
      (idx % cols * (B + G) + (B - B / 8 * 8) / 2 + bit * (B / 8) + B / 8),
      ((chunk.take (blocks_per_frame W H B G)).getD idx 0 / 2 ^ (7 - bit) % 2 = 1 →
        215 ≤ v) ∧
      ((chunk.take (blocks_per_frame W H B G)).getD idx 0 / 2 ^ (7 - bit) % 2 ≠ 1 →
        v ≤ 40) := by
    intro v hv
    obtain ⟨y, x, h1, h2, h3, h4, rfl⟩ := Decoder.mem_sampleVals.mp hv
    have hspan := Encoder.stripe_span_le B bit hB hbit
    have hyH : y < H := by omega
    have hxW : x < W := by omega
    have hi := hval (y * W + x) (by
      have := rowmajor_lt W H y x hyH hxW
      have hcomm : H * W = W * H := Nat.mul_comm _ _
      omega)
    have hclean := hcleanpix y x h1 h2 h3 h4
    simp only [pixel_zero_frame] at hclean ⊢
    constructor
    · intro hb
      rw [if_pos hb] at hclean
      omega
    · intro hb
      rw [if_neg hb] at hclean
      omega
  by_cases hb : (chunk.take (blocks_per_frame W H B G)).getD idx 0 / 2 ^ (7 - bit) % 2 = 1
  · have hsvnoisy := Decoder.le_sampleValue (c := 215) (by omega) (by omega)
      (fun v hv => (hnoisy v hv).1 hb)
    rw [hcleansv, if_pos hb]
    rw [if_pos (by omega), if_pos (by norm_num)]
  · have hsvnoisy := Decoder.sampleValue_le (c := 40) (fun v hv => (hnoisy v hv).2 hb)
    rw [hcleansv, if_neg hb]
    rw [if_neg (by omega), if_neg (by norm_num)]

/-- C2: for every byte chunk rendered with `block_size ≥ 8` and
`gutter ≥ 1`, and every perturbation of the rendered frame that moves
each pixel by at most 40 (staying within `[0,255]`),
`decode_frames_from_raw_bytes` recovers exactly the same bytes from the
perturbed frame as from the unperturbed one. -/
theorem C2_noise_tolerance (chunk noisy : List Nat) (W H B G : Nat)
    (hB : 8 ≤ B) (hG : 1 ≤ G)
    (hlen : noisy.length = W * H)
    (hval : ∀ i < W * H, noisy.getD i 0 ≤ 255 ∧
      (noisy.getD i 0 : Int) -
        ((Encoder.toBytes (Encoder.render_frame_from_payload chunk W H B G) W H).getD i 0 : Int)
          ≤ 40 ∧
      ((Encoder.toBytes (Encoder.render_frame_from_payload chunk W H B G) W H).getD i 0 : Int) -
        (noisy.getD i 0 : Int) ≤ 40) :
    Decoder.decode_frames_from_raw_bytes noisy W H B G =
      Decoder.decode_frames_from_raw_bytes
        (Encoder.toBytes (Encoder.render_frame_from_payload chunk W H B G) W H) W H B G := by
  rcases Nat.eq_zero_or_pos (W * H) with hWH | hWH
  · have hcomm : H * W = W * H := Nat.mul_comm _ _
    have ht1 : noisy.length / (W * H) = 0 := by
      rw [hlen, hWH]
    have ht2 : (Encoder.toBytes (Encoder.render_frame_from_payload chunk W H B G) W H).length /
        (W * H) = 0 := by
      rw [length_toBytes, hcomm, hWH]
    unfold Decoder.decode_frames_from_raw_bytes
    simp only
    rw [ht1, ht2]
    simp
  · have ht1 : noisy.length / (W * H) = 1 := by
      rw [hlen]
      exact Nat.div_self hWH
    have ht2 : (Encoder.toBytes (Encoder.render_frame_from_payload chunk W H B G) W H).length /
        (W * H) = 1 := by
      rw [length_toBytes, Nat.mul_comm H W]
      exact Nat.div_self hWH
    unfold Decoder.decode_frames_from_raw_bytes
    simp only
    rw [ht1, ht2]
    apply List.flatMap_congr
    intro f hf
    rw [List.mem_range] at hf
    have hf0 : f = 0 := by omega
    subst hf0
    apply List.map_congr_left
    intro idx hidx
    rw [List.mem_range] at hidx
    exact Decoder.decodeByte_congr
      (fun bit hbit => bitAt_noise chunk noisy W H B G idx bit hB hidx hbit hval)

/-- C2 witness: at `9×9`, block 8, gutter 1, the rendered frame of chunk
`[165]` with its top-left stripe pixel dimmed from 255 to 215 still
decodes to the same bytes as the clean frame. -/
theorem C2_noise_tolerance_witness :
    Decoder.decode_frames_from_raw_bytes
        ((Encoder.toBytes (Encoder.render_frame_from_payload [165] 9 9 8 1) 9 9).set 0 215)
        9 9 8 1 =
      Decoder.decode_frames_from_raw_bytes
        (Encoder.toBytes (Encoder.render_frame_from_payload [165] 9 9 8 1) 9 9) 9 9 8 1 :=
  C2_noise_tolerance [165] _ 9 9 8 1 (by norm_num) (by norm_num) (by decide) (by decide)

/-! ### Claim C3: threshold boundary -/

lemma listSum_map_range (f : Nat → Nat) (n : Nat) :
    ((List.range n).map f).sum = ∑ i ∈ Finset.range n, f i := by
  induction n with
  | zero => simp
  | succ n ih =>
      rw [List.range_succ, List.map_append, List.sum_append, Finset.sum_range_succ, ih]
      simp

lemma sampleVals_sum (frame : Nat → Nat → Nat) (ys0 ys1 xs0 xs1 : Nat) :
    (Decoder.sampleVals frame ys0 ys1 xs0 xs1).sum =
      ∑ y ∈ Finset.Ico ys0 ys1, ∑ x ∈ Finset.Ico xs0 xs1, frame y x := by
  unfold Decoder.sampleVals
  rw [List.flatMap_def, List.sum_flatten, List.map_map]
  rw [Finset.sum_Ico_eq_sum_range]
  rw [show (List.sum ∘ fun dy => (List.range (xs1 - xs0)).map fun dx =>
      frame (ys0 + dy) (xs0 + dx)) = fun dy => ((List.range (xs1 - xs0)).map fun dx =>
      frame (ys0 + dy) (xs0 + dx)).sum from rfl]
  rw [listSum_map_range]
  apply Finset.sum_congr rfl
  intro k hk
  rw [listSum_map_range, Finset.sum_Ico_eq_sum_range]

/-- The decoder's nonempty-rectangle sample value is exactly the
truncating integer mean of the rectangle. -/
lemma sampleValue_eq_rectMean (frame : Nat → Nat → Nat) (ys0 ys1 xs0 xs1 : Nat)
    (hy : ys0 < ys1) (hx : xs0 < xs1) :
    Decoder.sampleValue frame ys0 ys1 xs0 xs1 = rectMean frame ys0 ys1 xs0 xs1 := by
  unfold Decoder.sampleValue rectMean
  rw [if_neg (by omega)]
  simp only
  rw [if_pos (by
    rw [Decoder.length_sampleVals]
    exact Nat.mul_pos (by omega) (by omega))]
  rw [sampleVals_sum, Decoder.length_sampleVals]

/-- C3: for every frame, grid index and bit position (with a nonempty
clamped sampling rectangle) the decoded bit is 1 exactly when the
truncating integer mean of the sampled rectangle exceeds 127; in
particular an all-127 raster decodes every bit to 0 and an all-128
raster decodes every bit to 1. -/
theorem C3_threshold_boundary :
    (∀ (frame : Nat → Nat → Nat) (W H B G cols idx bit xs0 xs1 ys0 ys1 : Nat),
      Decoder.sampleRect W H B G cols idx bit = (xs0, xs1, ys0, ys1) →
      ys0 < ys1 → xs0 < xs1 →
      (Decoder.bitAt frame W H B G cols idx bit = 1 ↔
        127 < rectMean frame ys0 ys1 xs0 xs1)) ∧
    Decoder.decode_frames_from_raw_bytes (List.replicate 256 127) 16 16 8 1 = [0] ∧
    Decoder.decode_frames_from_raw_bytes (List.replicate 256 128) 16 16 8 1 = [255] := by
  refine ⟨?_, by decide, by decide⟩
  intro frame W H B G cols idx bit xs0 xs1 ys0 ys1 hsr hy hx
  unfold Decoder.bitAt
  rw [hsr]
  simp only
  rw [sampleValue_eq_rectMean frame ys0 ys1 xs0 xs1 hy hx]
  by_cases h : 127 < rectMean frame ys0 ys1 xs0 xs1
  · simp [h]
  · simp [h]

/-- C3 witness: the general threshold statement at the constant-127 frame
and the concrete `16×16` sampling rectangle of bit 0 of block 0. -/
theorem C3_threshold_boundary_witness :
    Decoder.bitAt (fun _ _ => 127) 16 16 8 1 1 0 0 = 1 ↔
      127 < rectMean (fun _ _ => 127) 1 7 0 1 :=
  C3_threshold_boundary.1 (fun _ _ => 127) 16 16 8 1 1 0 0 0 1 1 7
    (by decide) (by decide) (by decide)

/-! ### Claim C4: stripe origin arithmetic -/

/-- C4 counterexample: at `block_size = 1` (stripe_width 1) the claim's
truncating-toward-zero division gives `sx = x0 - 3`, but the code's
Python floor division gives `sx = x0 - 4`. -/
theorem C4_counterexample :
    Encoder.sx 0 1 ≠ 0 + Int.tdiv ((1 : Int) - (Encoder.stripe_w 1 * 8 : Nat)) 2 := by
  decide

/-- C4, amended: for every `block_size` and `gutter`, with
`stripe_width = max(1, block_size/8)`, encoder and decoder compute the
same stripe origin `sx = x0 + (block_size - stripe_width*8) // 2`, where
`//` is Python floor division (toward negative infinity, `Int.fdiv`). -/
theorem C4_stripe_origin (x0 : Int) (B : Nat) :
    Encoder.sx x0 B = Decoder.sx x0 B ∧
    Encoder.sx x0 B = x0 + Int.fdiv ((B : Int) - (max 1 (B / 8) * 8 : Nat)) 2 :=
  ⟨rfl, rfl⟩

/-! ### Claim C6: header-then-manifest dispatch -/

/-- C6: if the recovered stream starts with the magic (and is long enough
to carry the 20-byte header), the lengths are read from the header and
any manifest is ignored; without the magic, a manifest that supplies
`compressed_length` is used; with neither, parsing fails with the
FormatError. -/
theorem C6_header_dispatch (recovered : List Nat) (man_cl man_ol : Option Nat) :
    (recovered.take 4 = MAGIC → 20 ≤ recovered.length →
      Decoder.parse_recovered recovered man_cl man_ol =
        Decoder.parse_recovered recovered none none ∧
      Decoder.parse_recovered recovered man_cl man_ol =
        Except.ok (Decoder.le64 ((recovered.drop 4).take 8),
          some (Decoder.le64 ((recovered.drop 12).take 8)),
          (recovered.drop 20).take (Decoder.le64 ((recovered.drop 4).take 8)))) ∧
    (recovered.take 4 ≠ MAGIC → ∀ cl, man_cl = some cl →
      Decoder.parse_recovered recovered man_cl man_ol =
        Except.ok (cl, man_ol, recovered.take cl)) ∧
    (recovered.take 4 ≠ MAGIC → man_cl = none →
      Decoder.parse_recovered recovered man_cl man_ol =
        Except.error Decoder.DecodeError.formatError) := by
  by_cases h : recovered.take 4 = MAGIC
  · refine ⟨fun _ _ => ⟨?_, ?_⟩, fun hn => absurd h hn, fun hn => absurd h hn⟩
    · unfold Decoder.parse_recovered
      rw [if_pos h, if_pos h]
    · unfold Decoder.parse_recovered
      rw [if_pos h]
  · refine ⟨fun hc => absurd hc h, ?_, ?_⟩
    · intro _ cl hcl
      unfold Decoder.parse_recovered
      rw [if_neg h, hcl]
    · intro _ hnone
      unfold Decoder.parse_recovered
      rw [if_neg h, hnone]

/-- C6 witness: a 21-byte recovered stream with the magic and zero
lengths, parsed with a conflicting manifest present: the header wins. -/
theorem C6_header_dispatch_witness :
    Decoder.parse_recovered (MAGIC ++ List.replicate 16 0 ++ [9]) (some 7) (some 7) =
        Decoder.parse_recovered (MAGIC ++ List.replicate 16 0 ++ [9]) none none ∧
    Decoder.parse_recovered (MAGIC ++ List.replicate 16 0 ++ [9]) (some 7) (some 7) =
        Except.ok
          (Decoder.le64 (((MAGIC ++ List.replicate 16 0 ++ [9]).drop 4).take 8),
           some (Decoder.le64 (((MAGIC ++ List.replicate 16 0 ++ [9]).drop 12).take 8)),
           ((MAGIC ++ List.replicate 16 0 ++ [9]).drop 20).take
             (Decoder.le64 (((MAGIC ++ List.replicate 16 0 ++ [9]).drop 4).take 8))) :=
  (C6_header_dispatch (MAGIC ++ List.replicate 16 0 ++ [9]) (some 7) (some 7)).1
    (by decide) (by decide)

/-! ### Claim C8: decompression and truncation -/

/-- C8 counterexample to the claim as stated: with compress set but a
non-local (YouTube) input source, the body is returned verbatim instead
of being decompressed and truncated — the behaviour depends on the input
source, not only on the compress setting. -/
theorem C8_counterexample :
    Decoder.postprocess (fun _ => [9, 9]) true false [1] (some 1) = [1] ∧
    Decoder.postprocess (fun _ => [9, 9]) true false [1] (some 1) ≠
      ((fun (_ : List Nat) => [9, 9]) [1]).take 1 := by
  constructor
  · decide
  · decide

/-- C8, amended: the body is decompressed only when compress is set AND
the input is a local file, and the decompressed result is truncated to
`original_length` only when that value is present and nonzero (Python
truthiness); in every other case the body is returned verbatim. -/
theorem C8_decompression (dctx : List Nat → List Nat) (body : List Nat)
    (olen : Option Nat) :
    (∀ islocal, Decoder.postprocess dctx false islocal body olen = body) ∧
    (∀ c, Decoder.postprocess dctx c false body olen = body) ∧
    (∀ n, 0 < n →
      Decoder.postprocess dctx true true body (some n) = (dctx body).take n) ∧
    Decoder.postprocess dctx true true body none = dctx body ∧
    Decoder.postprocess dctx true true body (some 0) = dctx body := by
  refine ⟨?_, ?_, ?_, ?_, ?_⟩
  · intro islocal
    unfold Decoder.postprocess
    rw [if_neg (by simp)]
  · intro c
    unfold Decoder.postprocess
    rw [if_neg (by simp)]
  · intro n hn
    unfold Decoder.postprocess
    rw [if_pos (by simp)]
    simp only
    rw [if_pos (by omega)]
  · unfold Decoder.postprocess
    rw [if_pos (by simp)]
  · unfold Decoder.postprocess
    rw [if_pos (by simp)]
    simp

/-- C8 witness: a local-file decode with compress set decompresses and
truncates to `original_length = 1`. -/
theorem C8_decompression_witness :
    Decoder.postprocess (fun l => l ++ l) true true [3] (some 1) =
      ((fun (l : List Nat) => l ++ l) [3]).take 1 :=
  (C8_decompression (fun l => l ++ l) [3] (some 1)).2.2.1 1 (by norm_num)

/-! ### Claim C9: rendered frame invariant -/

lemma frameWrites_color (chunk : List Nat) (W H B G : Nat) :
    ∀ w ∈ Encoder.frameWrites chunk W H B G, w.color = 0 ∨ w.color = 255 := by
  intro w hw
  rw [Encoder.frameWrites] at hw
  simp only [List.mem_flatMap, List.mem_filterMap, List.mem_range] at hw
  obtain ⟨p, hp, bit, hbit, heq⟩ := hw
  set ws := Encoder.stripeWrite W H B G (grid_dimensions W H B G).1 p.1 p.2 bit with hws
  by_cases hg : ws.x0 < ws.x1 ∧ ws.y0 < ws.y1
  · rw [if_pos hg] at heq
    have hw' : w = ws := ((Option.some.injEq _ _).mp heq).symm
    rw [hw', hws]
    unfold Encoder.stripeWrite
    simp only
    split
    · right
      rfl
    · left
      rfl
  · rw [if_neg hg] at heq
    cases heq

/-- C9: every frame produced by `render_frame_from_payload` serializes to
exactly `width*height` samples; every pixel value is 0 or 255; and every
pixel outside all stripe writes (gutters, guard margins, unused
background) keeps the background value 0. -/
theorem C9_frame_invariant (chunk : List Nat) (W H B G : Nat) :
    (Encoder.toBytes (Encoder.render_frame_from_payload chunk W H B G) W H).length = W * H ∧
    (∀ v ∈ Encoder.toBytes (Encoder.render_frame_from_payload chunk W H B G) W H,
      v = 0 ∨ v = 255) ∧
    (∀ y x, (∀ w ∈ Encoder.frameWrites chunk W H B G, ¬ w.covers y x) →
      Encoder.render_frame_from_payload chunk W H B G y x = 0) := by
  refine ⟨?_, ?_, ?_⟩
  · rw [length_toBytes, Nat.mul_comm]
  · intro v hv
    unfold Encoder.toBytes at hv
    obtain ⟨i, hi, rfl⟩ := List.mem_map.mp hv
    exact Encoder.applyWrites_mem_pair _ _ _ _ (frameWrites_color chunk W H B G)
      (Or.inl rfl)
  · intro y x h
    exact Encoder.applyWrites_of_not_covers _ y x h _

/-- C9 witness: the gutter pixel `(8, 8)` of the `9×9` frame of chunk
`[165]` is written by no stripe and stays 0. -/
theorem C9_frame_invariant_witness :
    Encoder.render_frame_from_payload [165] 9 9 8 1 8 8 = 0 :=
  (C9_frame_invariant [165] 9 9 8 1).2.2 8 8 (by decide)

end YTF
